import Mathlib

/-!
# Verification of the two-pass RISC-V assembler front end

A shallow embedding of `src/parser.cpp` (preprocessing, symbol-table
construction, instruction parsing) and of the data-segment loading loop of
`src/main.cpp`.  C++ `std::string` values are modelled as `List Char`;
`exit(1)` error paths are modelled with `Except`; the 32-bit unsigned
address counter is modelled as a natural number reduced modulo `2 ^ 32`
at each increment.
-/

/-- C++ `std::string`, modelled as a list of characters. -/
abbrev Str := List Char

/-- Build a `Str` from a Lean string literal. -/
def str (s : String) : Str := s.data

/-- The whitespace set `" \t\r\n"` used by the trimming calls
`find_first_not_of(" \t\r\n")` / `find_last_not_of(" \t\r\n")` in
`src/parser.cpp`. -/
def isTrimWS (c : Char) : Bool :=
  c = ' ' || c = '\t' || c = '\r' || c = '\n'

/-- C-locale `::isspace`: space, tab, newline, vertical tab, form feed,
carriage return.  Used by `remove_if(label.begin(), label.end(), ::isspace)`
and by `stringstream` extraction. -/
def isSpaceC (c : Char) : Bool :=
  c = ' ' || c = '\t' || c = '\n' || c = '\x0b' || c = '\x0c' || c = '\r'

/-- `line.erase(0, line.find_first_not_of(" \t\r\n"))`. -/
def trimLeft (l : Str) : Str := l.dropWhile isTrimWS

/-- `line.erase(line.find_last_not_of(" \t\r\n") + 1)`: remove the maximal
all-whitespace suffix. -/
def trimRight : Str → Str
  | [] => []
  | c :: rest =>
    match trimRight rest with
    | [] => if isTrimWS c then [] else [c]
    | r => c :: r

/-- The two `erase` calls of `readAndPreprocess` combined: trim leading then
trailing `" \t\r\n"` characters. -/
def trim (l : Str) : Str := trimRight (trimLeft l)

/-- `std::string::find(c)`: index of the first occurrence of `c`, if any. -/
def firstIdx (c : Char) : Str → Option Nat
  | [] => none
  | a :: l => if a = c then some 0 else (firstIdx c l).map (· + 1)

/-- `line = line.substr(0, line.find('#'))` when `'#'` occurs:
drop the comment. -/
def stripComment (l : Str) : Str :=
  match firstIdx '#' l with
  | some p => l.take p
  | none => l

/-- One line of preprocessing: strip the comment, then trim. -/
def cleanLine (l : Str) : Str := trim (stripComment l)

/-- The push condition of `readAndPreprocess`: the cleaned line is non-empty
and does not start with `'.'`. -/
def keepLine (l : Str) : Bool :=
  match l with
  | [] => false
  | c :: _ => c ≠ '.'

/-- `readAndPreprocess` (src/parser.cpp lines 6-34), after the file has been
split into raw lines by `getline`: clean every line, keep the non-empty
non-directive ones, in order. -/
def readAndPreprocess (lines : List Str) : List Str :=
  (lines.map cleanLine).filter keepLine

/-- `s.erase(remove_if(s.begin(), s.end(), ::isspace), s.end())`: delete every
C-whitespace character. -/
def stripWS (l : Str) : Str := l.filter (fun c => !(isSpaceC c))

/-- The fatal assembler errors raised by `exit(1)` in `src/parser.cpp`:
duplicate label (line 58), wrong load/store operand count (line 119), and
malformed `imm(rs1)` addressing (line 131). -/
inductive AsmError where
  | duplicateLabel (label : Str)
  | operandCount (line mnemonic : Str)
  | addrFormat (line mnemonic : Str)
deriving DecidableEq

/-- `map<string, unsigned int>`, modelled as an association list; only
membership and lookup are exercised by the source. -/
abbrev SymbolTable := List (Str × Nat)

/-- `symbolTable.count(label)` / `symbolTable.at(label)`. -/
def lookupStr (st : SymbolTable) (k : Str) : Option Nat :=
  match st with
  | [] => none
  | (k2, v) :: rest => if k2 = k then some v else lookupStr rest k

/-- `2 ^ 32`, the modulus of the C++ `unsigned int` address counter. -/
def U32 : Nat := 4294967296

/-- `currentAddress += 4` on a 32-bit unsigned counter. -/
def adv (a : Nat) : Nat := (a + 4) % U32

/-- Modelled from the spec: `INSTRUCTION_MEMORY_START` is declared in
`parser.hpp`, which is not part of the repository; the spec fixes only that
it is "a fixed instruction-memory base address" (spec section 2 and 8).
We take 0. -/
def INSTRUCTION_MEMORY_START : Nat := 0

/-- The body of the `buildSymbolTable` loop (src/parser.cpp lines 43-72) for
one line: skip directive lines; on a line containing `':'`, strip whitespace
from the text before the first `':'`, fail on a duplicate, bind the label to
the current address, and advance the counter only when an instruction
follows the label; on a label-free line, always advance. -/
def symTableStep (line : Str) (st : SymbolTable) (addr : Nat) :
    Except AsmError (SymbolTable × Nat) :=
  if line.head? = some '.' then .ok (st, addr)
  else
    match firstIdx ':' line with
    | some p =>
      let lab := stripWS (line.take p)
      if (lookupStr st lab).isSome then .error (.duplicateLabel lab)
      else
        let restOfLine := trimLeft (line.drop (p + 1))
        .ok (st ++ [(lab, addr)], if restOfLine = [] then addr else adv addr)
    | none => .ok (st, adv addr)

/-- The `buildSymbolTable` loop over all lines, also returning the final
value of the (function-local) address counter. -/
def buildSymGo : SymbolTable → Nat → List Str → Except AsmError (SymbolTable × Nat)
  | st, addr, [] => .ok (st, addr)
  | st, addr, line :: rest =>
    match symTableStep line st addr with
    | .error e => .error e
    | .ok (st2, a2) => buildSymGo st2 a2 rest

/-- `buildSymbolTable` (src/parser.cpp lines 39-74). -/
def buildSymbolTable (lines : List Str) : Except AsmError SymbolTable :=
  (buildSymGo [] INSTRUCTION_MEMORY_START lines).map (fun r => r.1)

/-- `struct ParsedInstruction`: mnemonic, operand tokens, assigned address,
and the verbatim source line. -/
structure ParsedInstruction where
  mnemonic : Str
  operands : List Str
  address : Nat
  originalLine : Str
deriving DecidableEq

/-- Label stripping in `parseInstructions` (src/parser.cpp lines 90-97):
if the line contains `':'`, keep the text after the first `':'` with leading
whitespace removed, and skip the line (`none`) if nothing remains. -/
def stripLabel (line : Str) : Option Str :=
  match firstIdx ':' line with
  | some p =>
    let r := trimLeft (line.drop (p + 1))
    if r = [] then none else some r
  | none => some line

/-- `ss >> mnemonic`: skip C-whitespace, then take the maximal run of
non-whitespace characters. -/
def word1 (l : Str) : Str :=
  (l.dropWhile isSpaceC).takeWhile (fun c => !(isSpaceC c))

/-- `getline(ss, restOfLine)` after `ss >> mnemonic`: everything after the
extracted token (including the delimiter whitespace). -/
def afterWord1 (l : Str) : Str :=
  ((l.dropWhile isSpaceC).dropWhile (fun c => !(isSpaceC c)))

/-- Split a character list at every occurrence of `delim`. -/
def splitOnChar (delim : Char) : Str → List Str
  | [] => [[]]
  | c :: rest =>
    if c = delim then [] :: splitOnChar delim rest
    else
      match splitOnChar delim rest with
      | [] => [[c]]
      | p :: ps => (c :: p) :: ps

/-- Modelled from the spec: the helper `split` is declared in `parser.hpp`,
which is not part of the repository.  Spec section 4.2: "split the operand
string on commas, trim each token". -/
def split (l : Str) (delim : Char) : List Str :=
  (splitOnChar delim l).map trim

/-- The load/store operand block of `parseInstructions` (src/parser.cpp
lines 115-143): require exactly two comma-separated parts; locate the first
`'('` and the first `')'` of the second part, failing when either is absent
or the `')'` precedes the `'('`; emit `[register, base register, immediate]`,
the base register with all whitespace removed. -/
def parseLS (line mnemonic restOfLine : Str) : Except AsmError (List Str) :=
  match split restOfLine ',' with
  | [destReg, immAndBase] =>
    match firstIdx '(' immAndBase, firstIdx ')' immAndBase with
    | some o, some c =>
      if c < o then .error (.addrFormat line mnemonic)
      else
        let imm := immAndBase.take o
        let baseReg := stripWS ((immAndBase.drop (o + 1)).take (c - (o + 1)))
        .ok [destReg, baseReg, imm]
    | _, _ => .error (.addrFormat line mnemonic)
  | _ => .error (.operandCount line mnemonic)

/-- The body of the `parseInstructions` loop (src/parser.cpp lines 87-150)
for one line at the current address: `ok none` means the line was skipped
(pure label, or no mnemonic could be extracted). -/
def parseStep (line : Str) (addr : Nat) :
    Except AsmError (Option ParsedInstruction) :=
  match stripLabel line with
  | none => .ok none
  | some currentLine =>
    let mnemonic := word1 currentLine
    if mnemonic = [] then .ok none
    else
      let restOfLine := afterWord1 currentLine
      if mnemonic = str "lw" ∨ mnemonic = str "sw" then
        match parseLS line mnemonic restOfLine with
        | .error e => .error e
        | .ok ops => .ok (some ⟨mnemonic, ops, addr, line⟩)
      else .ok (some ⟨mnemonic, split restOfLine ',', addr, line⟩)

/-- The `parseInstructions` loop over all lines, also returning the final
value of the (function-local) address counter. -/
def parseGo : Nat → List Str → Except AsmError (List ParsedInstruction × Nat)
  | addr, [] => .ok ([], addr)
  | addr, line :: rest =>
    match parseStep line addr with
    | .error e => .error e
    | .ok none => parseGo addr rest
    | .ok (some inst) =>
      match parseGo (adv addr) rest with
      | .error e => .error e
      | .ok (insts, aF) => .ok (inst :: insts, aF)

/-- `parseInstructions` (src/parser.cpp lines 83-153). -/
def parseInstructions (lines : List Str) : Except AsmError (List ParsedInstruction) :=
  (parseGo INSTRUCTION_MEMORY_START lines).map (fun r => r.1)

/-- The assembly pipeline order of `main` (src/main.cpp lines 75-77):
the symbol table is built first; a failure there aborts before any
instruction is parsed. -/
def assemble (lines : List Str) :
    Except AsmError (SymbolTable × List ParsedInstruction) :=
  match buildSymbolTable lines with
  | .error e => .error e
  | .ok st =>
    match parseInstructions lines with
    | .error e => .error e
    | .ok insts => .ok (st, insts)

/-- Modelled from the spec: `set_memory(addr, v)` of the simulator
(`simulator.hpp`/`simulator.cpp` are not part of the repository); spec
section 4.4 describes it as byte-granular, so the stored value is reduced
to one byte. -/
def set_memory (mem : Nat → Nat) (addr v : Nat) : Nat → Nat :=
  fun a => if a = addr then v % 256 else mem a

/-- One iteration of the data-segment loading loop of `main`
(src/main.cpp lines 98-103): store the four little-endian bytes of `val`
at `addr`, `addr + 1`, `addr + 2`, `addr + 3`. -/
def loadDataEntry (mem : Nat → Nat) (addr val : Nat) : Nat → Nat :=
  set_memory
    (set_memory
      (set_memory
        (set_memory mem addr (val &&& 0xFF))
        (addr + 1) ((val >>> 8) &&& 0xFF))
      (addr + 2) ((val >>> 16) &&& 0xFF))
    (addr + 3) ((val >>> 24) &&& 0xFF)

/-- The whole data-segment loading loop of `main` over the entries of
`DATA_SEGMENT`, in iteration order. -/
def loadDataSegment (entries : List (Nat × Nat)) (mem : Nat → Nat) : Nat → Nat :=
  match entries with
  | [] => mem
  | (addr, val) :: rest => loadDataSegment rest (loadDataEntry mem addr val)

/-- Modelled from the spec: the simulator's register file
(`simulator.hpp`/`simulator.cpp` are not part of the repository); spec
section 3: "32 general-purpose registers (x0 hardwired to zero — writes to
it are silently discarded)". -/
structure SimRegs where
  regs : Nat → Nat

/-- Modelled from the spec: `get_reg(i)`. -/
def get_reg (s : SimRegs) (i : Nat) : Nat := s.regs i

/-- Modelled from the spec: `set_reg(i, v)`; spec section 4.4: "index 0
write is a no-op". -/
def set_reg (s : SimRegs) (i v : Nat) : SimRegs :=
  if i = 0 then s else ⟨fun j => if j = i then v else s.regs j⟩

/-- Modelled from the spec: the write-back stage, the only part of `step()`
that mutates the register file; spec section 4.4 step 1: "if
register-write-enable is set and destination ≠ 0, write
ALU-result-or-loaded-data into the register file". -/
def wbWrite (s : SimRegs) (regWrite : Bool) (rd v : Nat) : SimRegs :=
  if regWrite = true ∧ rd ≠ 0 then ⟨fun j => if j = rd then v else s.regs j⟩ else s

/-- The register-file-affecting simulator operations: an external
`set_reg(i, v)` call, or the write-back stage of a `step()` call (with the
control bits of the instruction then in MEM/WB, covering instructions whose
destination register is 0). -/
inductive SimOp where
  | setRegOp (i v : Nat)
  | writeBack (regWrite : Bool) (rd v : Nat)

/-- Apply one simulator operation to the register file. -/
def applySimOp (s : SimRegs) : SimOp → SimRegs
  | .setRegOp i v => set_reg s i v
  | .writeBack w rd v => wbWrite s w rd v

/-- Run an arbitrary interleaving of simulator operations. -/
def runSim (s : SimRegs) : List SimOp → SimRegs
  | [] => s
  | op :: ops => runSim (applySimOp s op) ops

/-- Observation: the condition under which the `buildSymbolTable` loop
advances its address counter on a line — a non-directive line that either
has no label or has an instruction after the label. -/
def countsInstr (l : Str) : Bool :=
  if l.head? = some '.' then false
  else
    match firstIdx ':' l with
    | some p => !(trimLeft (l.drop (p + 1))).isEmpty
    | none => true

/-- A preprocessed line as claim C1 describes it — non-empty, trimmed, not
starting with `'.'` — further containing no vertical-tab or form-feed
character (whitespace that the preprocessor's trim set `" \t\r\n"` does not
remove but that `stringstream` extraction skips). -/
def GoodLine (l : Str) : Prop :=
  l ≠ [] ∧ trim l = l ∧ l.head? ≠ some '.' ∧
    ∀ c ∈ l, c ≠ '\x0b' ∧ c ≠ '\x0c'

instance : DecidablePred GoodLine := fun l => by
  unfold GoodLine; infer_instance

/-- Observation: the label that `buildSymbolTable` binds on a line, if
any. -/
def lineLabel (l : Str) : Option Str :=
  if l.head? = some '.' then none
  else (firstIdx ':' l).map (fun p => stripWS (l.take p))

/-- Observation: the labels bound by `buildSymbolTable`, in line order. -/
def labelsOf (lines : List Str) : List Str := lines.filterMap lineLabel

deriving instance DecidableEq for Except

/-! ## Helper lemmas about characters and trimming -/

theorem head?_dropWhile_not (p : Char → Bool) (l : Str) (c : Char)
    (h : (l.dropWhile p).head? = some c) : p c = false := by
  induction l with
  | nil => simp [List.dropWhile] at h
  | cons a t ih =>
    rw [List.dropWhile_cons] at h
    split at h
    · exact ih h
    · next hp =>
      injection h with h
      subst h
      simpa using hp

theorem mem_of_mem_dropWhile (p : Char → Bool) (l : Str) (a : Char)
    (h : a ∈ l.dropWhile p) : a ∈ l := by
  induction l with
  | nil => simp at h
  | cons b t ih =>
    rw [List.dropWhile_cons] at h
    split at h
    · exact List.mem_cons_of_mem _ (ih h)
    · exact h

theorem trimRight_cons (c : Char) (t : Str) :
    trimRight (c :: t) =
      match trimRight t with
      | [] => if isTrimWS c then [] else [c]
      | r => c :: r := rfl

theorem trimRight_head? (l : Str) :
    trimRight l = [] ∨ (trimRight l).head? = l.head? := by
  cases l with
  | nil => exact Or.inl rfl
  | cons c t =>
    rw [trimRight_cons]
    cases htr : trimRight t with
    | nil =>
      by_cases hc : isTrimWS c
      · exact Or.inl (by simp [hc])
      · right; simp [hc]
    | cons d r => right; rfl

theorem mem_of_mem_trimRight (l : Str) (a : Char) (h : a ∈ trimRight l) : a ∈ l := by
  induction l with
  | nil => simp [trimRight] at h
  | cons c t ih =>
    rw [trimRight_cons] at h
    cases htr : trimRight t with
    | nil =>
      rw [htr] at h
      by_cases hc : isTrimWS c
      · simp [hc] at h
      · simp [hc] at h
        simp [h]
    | cons d r =>
      rw [htr] at h
      rcases List.mem_cons.mp h with h | h
      · simp [h]
      · exact List.mem_cons_of_mem _ (ih (by rw [htr]; exact h))

theorem getLast?_trimRight (l : Str) (c : Char)
    (h : (trimRight l).getLast? = some c) : isTrimWS c = false := by
  induction l with
  | nil => simp [trimRight] at h
  | cons b t ih =>
    rw [trimRight_cons] at h
    cases htr : trimRight t with
    | nil =>
      rw [htr] at h
      by_cases hb : isTrimWS b
      · simp [hb] at h
      · simp [hb] at h
        rw [← h]
        simpa using hb
    | cons d r =>
      rw [htr] at h
      rw [List.getLast?_cons_cons] at h
      exact ih (by rw [htr]; exact h)

theorem length_trimRight_le (l : Str) : (trimRight l).length ≤ l.length := by
  induction l with
  | nil => simp [trimRight]
  | cons c t ih =>
    rw [trimRight_cons]
    cases htr : trimRight t with
    | nil =>
      by_cases hc : isTrimWS c
      · simp [hc]
      · simp [hc]
    | cons d r =>
      simp only [List.length_cons]
      rw [htr] at ih
      simpa using ih

theorem head_not_ws_of_trim_eq (l : Str) (c : Char) (hl : trim l = l)
    (hh : l.head? = some c) : isTrimWS c = false := by
  have h1 : (trimLeft l).length ≤ l.length :=
    (List.dropWhile_sublist isTrimWS).length_le
  have h2 : (trim l).length ≤ (trimLeft l).length := length_trimRight_le (trimLeft l)
  rw [hl] at h2
  cases l with
  | nil => simp at hh
  | cons a t =>
    injection hh with hh
    by_contra hws
    have hws' : isTrimWS a = true := by
      rw [hh]
      cases h : isTrimWS c
      · exact absurd h hws
      · rfl
    have h3 : trimLeft (a :: t) = trimLeft t := by
      unfold trimLeft
      rw [List.dropWhile_cons]
      simp [hws']
    have h4 : (trimLeft t).length ≤ t.length :=
      (List.dropWhile_sublist isTrimWS).length_le
    rw [h3] at h2
    simp only [List.length_cons] at h2
    omega

/-! ## Helper lemmas about firstIdx, whitespace classes, tables, counters -/

theorem firstIdx_eq_none (c : Char) (l : Str) : firstIdx c l = none ↔ c ∉ l := by
  induction l with
  | nil => simp [firstIdx]
  | cons a t ih =>
    rw [firstIdx]
    by_cases ha : a = c
    · simp [ha]
    · simp only [if_neg ha, Option.map_eq_none', ih, List.mem_cons]
      constructor
      · intro h hm
        rcases hm with hm | hm
        · exact ha hm.symm
        · exact h hm
      · intro h hm
        exact h (Or.inr hm)

theorem firstIdx_take (c : Char) (l : Str) (p : Nat) (h : firstIdx c l = some p) :
    c ∉ l.take p := by
  induction l generalizing p with
  | nil => simp [firstIdx] at h
  | cons a t ih =>
    rw [firstIdx] at h
    by_cases ha : a = c
    · rw [if_pos ha] at h
      injection h with h
      simp [← h]
    · rw [if_neg ha] at h
      cases hq : firstIdx c t with
      | none => rw [hq] at h; simp at h
      | some q =>
        rw [hq] at h
        simp only [Option.map_some'] at h
        injection h with h
        rw [← h]
        simp only [List.take_succ_cons, List.mem_cons, not_or]
        exact ⟨fun hc => ha hc.symm, ih q hq⟩

theorem firstIdx_get (c : Char) (l : Str) (p : Nat) (h : firstIdx c l = some p) :
    ∃ hp : p < l.length, l.get ⟨p, hp⟩ = c := by
  induction l generalizing p with
  | nil => simp [firstIdx] at h
  | cons a t ih =>
    rw [firstIdx] at h
    by_cases ha : a = c
    · rw [if_pos ha] at h
      injection h with h
      rw [← h]
      exact ⟨by simp, ha⟩
    · rw [if_neg ha] at h
      cases hq : firstIdx c t with
      | none => rw [hq] at h; simp at h
      | some q =>
        rw [hq] at h
        simp only [Option.map_some'] at h
        injection h with h
        obtain ⟨hq2, hget⟩ := ih q hq
        rw [← h]
        refine ⟨by simpa using Nat.succ_lt_succ hq2, ?_⟩
        simpa using hget

theorem isTrimWS_isSpaceC (c : Char) (h : isTrimWS c = true) : isSpaceC c = true := by
  unfold isTrimWS at h
  unfold isSpaceC
  simp only [Bool.or_eq_true, decide_eq_true_eq] at h ⊢
  tauto

theorem isSpaceC_false_of (c : Char) (h1 : isTrimWS c = false)
    (h2 : c ≠ '\x0b') (h3 : c ≠ '\x0c') : isSpaceC c = false := by
  cases hs : isSpaceC c
  · rfl
  · exfalso
    unfold isSpaceC at hs
    unfold isTrimWS at h1
    simp only [Bool.or_eq_true, decide_eq_true_eq] at hs
    simp only [Bool.or_eq_false_iff, decide_eq_false_iff_not] at h1
    tauto

theorem lookupStr_append_of_none (st : SymbolTable) (k : Str) (v : Nat)
    (h : lookupStr st k = none) : lookupStr (st ++ [(k, v)]) k = some v := by
  induction st with
  | nil => simp [lookupStr]
  | cons q rest ih =>
    obtain ⟨k2, v2⟩ := q
    by_cases hk : k2 = k
    · rw [lookupStr, if_pos hk] at h
      exact absurd h (by simp)
    · rw [lookupStr, if_neg hk] at h
      rw [List.cons_append, lookupStr, if_neg hk]
      exact ih h

theorem lookupStr_isSome_iff (st : SymbolTable) (k : Str) :
    (lookupStr st k).isSome = true ↔ k ∈ st.map (fun q => q.1) := by
  induction st with
  | nil => simp [lookupStr]
  | cons q rest ih =>
    obtain ⟨k2, v2⟩ := q
    by_cases hk : k2 = k
    · subst hk
      simp [lookupStr]
    · rw [lookupStr, if_neg hk]
      simp only [List.map_cons, List.mem_cons]
      rw [ih]
      constructor
      · exact fun h => Or.inr h
      · rintro (h | h)
        · exact absurd h.symm hk
        · exact h

theorem adv_ne (a : Nat) : adv a ≠ a := by
  unfold adv U32
  omega

theorem adv_lt (a : Nat) : adv a < U32 := by
  unfold adv U32
  omega

theorem word1_ne_nil (l : Str) (c : Char) (hc : l.head? = some c)
    (hns : isSpaceC c = false) : word1 l ≠ [] := by
  cases l with
  | nil => simp at hc
  | cons a t =>
    injection hc with hc
    unfold word1
    rw [List.dropWhile_cons]
    rw [if_neg (by rw [hc, hns]; exact Bool.false_ne_true)]
    rw [List.takeWhile_cons]
    rw [if_pos (by rw [hc, hns]; rfl)]
    exact List.cons_ne_nil a _

/-! ## Step equations and per-line lemmas for the two passes -/

theorem symTableStep_eq (l : Str) (st : SymbolTable) (addr : Nat) :
    symTableStep l st addr =
      if l.head? = some '.' then .ok (st, addr)
      else
        match firstIdx ':' l with
        | some p =>
          if (lookupStr st (stripWS (l.take p))).isSome then
            .error (.duplicateLabel (stripWS (l.take p)))
          else
            .ok (st ++ [(stripWS (l.take p), addr)],
              if trimLeft (l.drop (p + 1)) = [] then addr else adv addr)
        | none => .ok (st, adv addr) := rfl

theorem parseStep_eq (l : Str) (addr : Nat) :
    parseStep l addr =
      match stripLabel l with
      | none => .ok none
      | some cl =>
        if word1 cl = [] then .ok none
        else if word1 cl = str "lw" ∨ word1 cl = str "sw" then
          match parseLS l (word1 cl) (afterWord1 cl) with
          | .error e => .error e
          | .ok ops => .ok (some ⟨word1 cl, ops, addr, l⟩)
        else .ok (some ⟨word1 cl, split (afterWord1 cl) ',', addr, l⟩) := rfl

theorem symTableStep_dot (l : Str) (st : SymbolTable) (addr : Nat)
    (hdot : l.head? = some '.') : symTableStep l st addr = .ok (st, addr) := by
  rw [symTableStep_eq, if_pos hdot]

theorem symTableStep_nolabel (l : Str) (st : SymbolTable) (addr : Nat)
    (hdot : l.head? ≠ some '.') (hp : firstIdx ':' l = none) :
    symTableStep l st addr = .ok (st, adv addr) := by
  rw [symTableStep_eq, if_neg hdot, hp]

theorem symTableStep_dup (l : Str) (st : SymbolTable) (addr : Nat) (p : Nat)
    (hdot : l.head? ≠ some '.') (hp : firstIdx ':' l = some p)
    (hdup : (lookupStr st (stripWS (l.take p))).isSome = true) :
    symTableStep l st addr = .error (.duplicateLabel (stripWS (l.take p))) := by
  rw [symTableStep_eq, if_neg hdot, hp]
  simp [hdup]

theorem symTableStep_bind (l : Str) (st : SymbolTable) (addr : Nat) (p : Nat)
    (hdot : l.head? ≠ some '.') (hp : firstIdx ':' l = some p)
    (hdup : (lookupStr st (stripWS (l.take p))).isSome = false) :
    symTableStep l st addr =
      .ok (st ++ [(stripWS (l.take p), addr)],
        if trimLeft (l.drop (p + 1)) = [] then addr else adv addr) := by
  rw [symTableStep_eq, if_neg hdot, hp]
  simp [hdup]

theorem symTableStep_counter (l : Str) (st : SymbolTable) (addr : Nat)
    (st2 : SymbolTable) (a2 : Nat)
    (h : symTableStep l st addr = .ok (st2, a2)) :
    a2 = if countsInstr l then adv addr else addr := by
  unfold countsInstr
  by_cases hdot : l.head? = some '.'
  · rw [symTableStep_dot l st addr hdot] at h
    simp only [Except.ok.injEq, Prod.mk.injEq] at h
    rw [if_pos hdot]
    exact h.2.symm
  · rw [if_neg hdot]
    cases hp : firstIdx ':' l with
    | none =>
      rw [symTableStep_nolabel l st addr hdot hp] at h
      simp only [Except.ok.injEq, Prod.mk.injEq] at h
      simp [← h.2]
    | some p =>
      cases hdup : (lookupStr st (stripWS (l.take p))).isSome with
      | true =>
        rw [symTableStep_dup l st addr p hdot hp hdup] at h
        exact Except.noConfusion h
      | false =>
        rw [symTableStep_bind l st addr p hdot hp hdup] at h
        simp only [Except.ok.injEq, Prod.mk.injEq] at h
        by_cases hr : trimLeft (l.drop (p + 1)) = []
        · rw [if_pos hr] at h
          simp [hr, ← h.2]
        · rw [if_neg hr] at h
          have hie : (trimLeft (l.drop (p + 1))).isEmpty = false :=
            List.isEmpty_eq_false.mpr hr
          simp [hie, ← h.2]

theorem symTableStep_error (l : Str) (st : SymbolTable) (addr : Nat) (e : AsmError)
    (h : symTableStep l st addr = .error e) :
    ∃ p, firstIdx ':' l = some p ∧ e = .duplicateLabel (stripWS (l.take p)) ∧
      (lookupStr st (stripWS (l.take p))).isSome = true ∧ l.head? ≠ some '.' := by
  by_cases hdot : l.head? = some '.'
  · rw [symTableStep_dot l st addr hdot] at h
    exact Except.noConfusion h
  · cases hp : firstIdx ':' l with
    | none =>
      rw [symTableStep_nolabel l st addr hdot hp] at h
      exact Except.noConfusion h
    | some p =>
      cases hdup : (lookupStr st (stripWS (l.take p))).isSome with
      | false =>
        rw [symTableStep_bind l st addr p hdot hp hdup] at h
        exact Except.noConfusion h
      | true =>
        rw [symTableStep_dup l st addr p hdot hp hdup] at h
        simp only [Except.error.injEq] at h
        exact ⟨p, rfl, h.symm, hdup, hdot⟩

theorem parseStep_skipLabel (l : Str) (addr : Nat) (hsl : stripLabel l = none) :
    parseStep l addr = .ok none := by
  rw [parseStep_eq, hsl]

theorem parseStep_skipEmpty (l : Str) (addr : Nat) (cl : Str)
    (hsl : stripLabel l = some cl) (hm : word1 cl = []) :
    parseStep l addr = .ok none := by
  rw [parseStep_eq, hsl]
  simp [hm]

theorem parseStep_ls (l : Str) (addr : Nat) (cl : Str)
    (hsl : stripLabel l = some cl) (hm : word1 cl ≠ [])
    (hls : word1 cl = str "lw" ∨ word1 cl = str "sw") :
    parseStep l addr =
      match parseLS l (word1 cl) (afterWord1 cl) with
      | .error e => .error e
      | .ok ops => .ok (some ⟨word1 cl, ops, addr, l⟩) := by
  rw [parseStep_eq, hsl]
  simp only [if_neg hm, if_pos hls]

theorem parseStep_general (l : Str) (addr : Nat) (cl : Str)
    (hsl : stripLabel l = some cl) (hm : word1 cl ≠ [])
    (hls : ¬(word1 cl = str "lw" ∨ word1 cl = str "sw")) :
    parseStep l addr =
      .ok (some ⟨word1 cl, split (afterWord1 cl) ',', addr, l⟩) := by
  rw [parseStep_eq, hsl]
  simp only [if_neg hm, if_neg hls]

theorem parseStep_address (l : Str) (addr : Nat) (i : ParsedInstruction)
    (h : parseStep l addr = .ok (some i)) :
    i.address = addr ∧ i.originalLine = l := by
  cases hsl : stripLabel l with
  | none =>
    rw [parseStep_skipLabel l addr hsl] at h
    simp at h
  | some cl =>
    by_cases hm : word1 cl = []
    · rw [parseStep_skipEmpty l addr cl hsl hm] at h
      simp at h
    · by_cases hls : word1 cl = str "lw" ∨ word1 cl = str "sw"
      · rw [parseStep_ls l addr cl hsl hm hls] at h
        cases hp : parseLS l (word1 cl) (afterWord1 cl) with
        | error e =>
          rw [hp] at h
          exact Except.noConfusion h
        | ok ops =>
          rw [hp] at h
          simp only [Except.ok.injEq, Option.some.injEq] at h
          rw [← h]
          exact ⟨rfl, rfl⟩
      · rw [parseStep_general l addr cl hsl hm hls] at h
        simp only [Except.ok.injEq, Option.some.injEq] at h
        rw [← h]
        exact ⟨rfl, rfl⟩

theorem stripLabel_nolabel (l : Str) (hp : firstIdx ':' l = none) :
    stripLabel l = some l := by
  unfold stripLabel
  rw [hp]

theorem stripLabel_colon (l : Str) (p : Nat) (hp : firstIdx ':' l = some p) :
    stripLabel l =
      if trimLeft (l.drop (p + 1)) = [] then none
      else some (trimLeft (l.drop (p + 1))) := by
  unfold stripLabel
  rw [hp]

theorem good_head_word1 (l cl : Str) (c : Char)
    (hvf : ∀ c ∈ l, c ≠ '\x0b' ∧ c ≠ '\x0c')
    (hc : cl.head? = some c) (hcl : c ∈ l) (hws : isTrimWS c = false) :
    word1 cl ≠ [] := by
  have hsp : isSpaceC c = false :=
    isSpaceC_false_of c hws (hvf c hcl).1 (hvf c hcl).2
  exact word1_ne_nil cl c hc hsp

theorem parseStep_isSome (l : Str) (addr : Nat) (r : Option ParsedInstruction)
    (hg : GoodLine l) (h : parseStep l addr = .ok r) :
    r.isSome = countsInstr l := by
  obtain ⟨hne, htrim, hdot, hvf⟩ := hg
  unfold countsInstr
  rw [if_neg hdot]
  cases hp : firstIdx ':' l with
  | none =>
    have hsl : stripLabel l = some l := stripLabel_nolabel l hp
    obtain ⟨c, hc⟩ : ∃ c, l.head? = some c := by
      cases l
      · exact absurd rfl hne
      · exact ⟨_, rfl⟩
    have hws : isTrimWS c = false := head_not_ws_of_trim_eq l c htrim hc
    have hw : word1 l ≠ [] :=
      good_head_word1 l l c hvf hc (List.mem_of_mem_head? (hc ▸ rfl)) hws
    by_cases hls : word1 l = str "lw" ∨ word1 l = str "sw"
    · rw [parseStep_ls l addr l hsl hw hls] at h
      cases hpl : parseLS l (word1 l) (afterWord1 l) with
      | error e =>
        rw [hpl] at h
        exact Except.noConfusion h
      | ok ops =>
        rw [hpl] at h
        simp only [Except.ok.injEq] at h
        simp [← h]
    · rw [parseStep_general l addr l hsl hw hls] at h
      simp only [Except.ok.injEq] at h
      simp [← h]
  | some p =>
    by_cases hr : trimLeft (l.drop (p + 1)) = []
    · have hsl : stripLabel l = none := by
        rw [stripLabel_colon l p hp, if_pos hr]
      rw [parseStep_skipLabel l addr hsl] at h
      simp only [Except.ok.injEq] at h
      simp [← h, hr]
    · have hsl : stripLabel l = some (trimLeft (l.drop (p + 1))) := by
        rw [stripLabel_colon l p hp, if_neg hr]
      obtain ⟨c, hc⟩ : ∃ c, (trimLeft (l.drop (p + 1))).head? = some c := by
        cases hx : trimLeft (l.drop (p + 1))
        · exact absurd hx hr
        · exact ⟨_, rfl⟩
      have hws : isTrimWS c = false := head?_dropWhile_not isTrimWS _ c hc
      have hcl : c ∈ l :=
        List.drop_subset (p + 1) l
          (mem_of_mem_dropWhile isTrimWS _ c (List.mem_of_mem_head? (hc ▸ rfl)))
      have hw : word1 (trimLeft (l.drop (p + 1))) ≠ [] :=
        good_head_word1 l (trimLeft (l.drop (p + 1))) c hvf hc hcl hws
      have hie : (trimLeft (l.drop (p + 1))).isEmpty = false :=
        List.isEmpty_eq_false.mpr hr
      by_cases hls : word1 (trimLeft (l.drop (p + 1))) = str "lw" ∨
          word1 (trimLeft (l.drop (p + 1))) = str "sw"
      · rw [parseStep_ls l addr _ hsl hw hls] at h
        cases hpl : parseLS l (word1 (trimLeft (l.drop (p + 1))))
            (afterWord1 (trimLeft (l.drop (p + 1)))) with
        | error e =>
          rw [hpl] at h
          exact Except.noConfusion h
        | ok ops =>
          rw [hpl] at h
          simp only [Except.ok.injEq] at h
          simp [← h, hie]
      · rw [parseStep_general l addr _ hsl hw hls] at h
        simp only [Except.ok.injEq] at h
        simp [← h, hie]

/-! ## Fold equations for the two passes -/

theorem buildSymGo_nil (st : SymbolTable) (addr : Nat) :
    buildSymGo st addr [] = .ok (st, addr) := rfl

theorem parseGo_nil (addr : Nat) : parseGo addr [] = .ok ([], addr) := rfl

theorem buildSymGo_cons_ok (line : Str) (rest : List Str) (st st2 : SymbolTable)
    (addr a2 : Nat) (h : symTableStep line st addr = .ok (st2, a2)) :
    buildSymGo st addr (line :: rest) = buildSymGo st2 a2 rest := by
  simp only [buildSymGo]
  rw [h]

theorem buildSymGo_cons_err (line : Str) (rest : List Str) (st : SymbolTable)
    (addr : Nat) (e : AsmError) (h : symTableStep line st addr = .error e) :
    buildSymGo st addr (line :: rest) = .error e := by
  simp only [buildSymGo]
  rw [h]

theorem parseGo_cons_err (line : Str) (rest : List Str) (addr : Nat) (e : AsmError)
    (h : parseStep line addr = .error e) :
    parseGo addr (line :: rest) = .error e := by
  simp only [parseGo]
  rw [h]

theorem parseGo_cons_none (line : Str) (rest : List Str) (addr : Nat)
    (h : parseStep line addr = .ok none) :
    parseGo addr (line :: rest) = parseGo addr rest := by
  simp only [parseGo]
  rw [h]

theorem parseGo_cons_some_ok (line : Str) (rest : List Str) (addr : Nat)
    (inst : ParsedInstruction) (insts2 : List ParsedInstruction) (aF : Nat)
    (h : parseStep line addr = .ok (some inst))
    (hr : parseGo (adv addr) rest = .ok (insts2, aF)) :
    parseGo addr (line :: rest) = .ok (inst :: insts2, aF) := by
  simp only [parseGo]
  rw [h, hr]

theorem parseGo_cons_some_err (line : Str) (rest : List Str) (addr : Nat)
    (inst : ParsedInstruction) (e : AsmError)
    (h : parseStep line addr = .ok (some inst))
    (hr : parseGo (adv addr) rest = .error e) :
    parseGo addr (line :: rest) = .error e := by
  simp only [parseGo]
  rw [h, hr]

/-- The combined induction behind claim C1: on good lines, whenever both
passes succeed, their address counters agree after every prefix, and the
parsed instructions receive the addresses `addr, addr + 4, ...` modulo
`2 ^ 32`. -/
theorem agree_go (lines : List Str) :
    ∀ st addr stF aS insts aP, addr < U32 → (∀ l ∈ lines, GoodLine l) →
      buildSymGo st addr lines = .ok (stF, aS) →
      parseGo addr lines = .ok (insts, aP) →
      aS = aP ∧
      (∀ k, ∃ stk ak instsk,
        buildSymGo st addr (lines.take k) = .ok (stk, ak) ∧
        parseGo addr (lines.take k) = .ok (instsk, ak)) ∧
      (∀ i, (hi : i < insts.length) → insts[i].address = (addr + 4 * i) % U32) := by
  induction lines with
  | nil =>
    intro st addr stF aS insts aP hlt hg hs hp
    rw [buildSymGo_nil] at hs
    rw [parseGo_nil] at hp
    simp only [Except.ok.injEq, Prod.mk.injEq] at hs hp
    obtain ⟨rfl, rfl⟩ := hs
    obtain ⟨rfl, rfl⟩ := hp
    refine ⟨rfl, ?_, ?_⟩
    · intro k
      exact ⟨st, addr, [], by rw [List.take_nil, buildSymGo_nil],
        by rw [List.take_nil, parseGo_nil]⟩
    · intro i hi
      simp at hi
  | cons line rest ih =>
    intro st addr stF aS insts aP hlt hg hs hp
    have hgl : GoodLine line := hg line (List.mem_cons_self line rest)
    have hgr : ∀ l ∈ rest, GoodLine l := fun l hl => hg l (List.mem_cons_of_mem _ hl)
    cases hstep : symTableStep line st addr with
    | error e =>
      rw [buildSymGo_cons_err line rest st addr e hstep] at hs
      exact Except.noConfusion hs
    | ok pair =>
      obtain ⟨st2, a2⟩ := pair
      rw [buildSymGo_cons_ok line rest st st2 addr a2 hstep] at hs
      cases hpstep : parseStep line addr with
      | error e =>
        rw [parseGo_cons_err line rest addr e hpstep] at hp
        exact Except.noConfusion hp
      | ok r =>
        have hcount := symTableStep_counter line st addr st2 a2 hstep
        have hsome := parseStep_isSome line addr r hgl hpstep
        cases r with
        | none =>
          have hcf : countsInstr line = false := by
            rw [← hsome]
            rfl
          have ha2 : a2 = addr := by
            rw [hcount, hcf]
            simp
          rw [ha2] at hs
          rw [parseGo_cons_none line rest addr hpstep] at hp
          obtain ⟨h1, h2, h3⟩ := ih st2 addr stF aS insts aP hlt hgr hs hp
          refine ⟨h1, ?_, h3⟩
          intro k
          cases k with
          | zero => exact ⟨st, addr, [], by rw [List.take_zero, buildSymGo_nil],
              by rw [List.take_zero, parseGo_nil]⟩
          | succ k =>
            obtain ⟨stk, ak, instsk, hbk, hpk⟩ := h2 k
            refine ⟨stk, ak, instsk, ?_, ?_⟩
            · rw [List.take_succ_cons,
                buildSymGo_cons_ok line _ st st2 addr a2 hstep, ha2]
              exact hbk
            · rw [List.take_succ_cons, parseGo_cons_none line _ addr hpstep]
              exact hpk
        | some inst =>
          have hct : countsInstr line = true := by
            rw [← hsome]
            rfl
          have ha2 : a2 = adv addr := by
            rw [hcount, hct]
            simp
          rw [ha2] at hs
          cases hpr : parseGo (adv addr) rest with
          | error e =>
            rw [parseGo_cons_some_err line rest addr inst e hpstep hpr] at hp
            exact Except.noConfusion hp
          | ok pr =>
            obtain ⟨insts2, aF⟩ := pr
            rw [parseGo_cons_some_ok line rest addr inst insts2 aF hpstep hpr] at hp
            simp only [Except.ok.injEq, Prod.mk.injEq] at hp
            obtain ⟨hinsts, haP⟩ := hp
            obtain ⟨h1, h2, h3⟩ :=
              ih st2 (adv addr) stF aS insts2 aF (adv_lt addr) hgr hs hpr
            subst hinsts
            refine ⟨by rw [h1, haP], ?_, ?_⟩
            · intro k
              cases k with
              | zero => exact ⟨st, addr, [], by rw [List.take_zero, buildSymGo_nil],
                  by rw [List.take_zero, parseGo_nil]⟩
              | succ k =>
                obtain ⟨stk, ak, instsk, hbk, hpk⟩ := h2 k
                refine ⟨stk, ak, inst :: instsk, ?_, ?_⟩
                · rw [List.take_succ_cons,
                    buildSymGo_cons_ok line _ st st2 addr a2 hstep, ha2]
                  exact hbk
                · rw [List.take_succ_cons]
                  exact parseGo_cons_some_ok line _ addr inst instsk ak hpstep hpk
            · intro i hi
              cases i with
              | zero =>
                have haddr := (parseStep_address line addr inst hpstep).1
                simp only [List.getElem_cons_zero]
                rw [haddr, Nat.mul_zero, Nat.add_zero, Nat.mod_eq_of_lt hlt]
              | succ i =>
                have hi2 : i < insts2.length := by
                  simp only [List.length_cons] at hi
                  omega
                have hrec := h3 i hi2
                simp only [List.getElem_cons_succ]
                rw [hrec]
                unfold adv
                rw [Nat.mod_add_mod]
                congr 1
                ring

/-! ## Claim C1 -/

/-- C1, amended: for preprocessed lines (non-empty, trimmed, not starting
with `'.'`) that additionally contain no vertical-tab or form-feed
character, whenever both passes succeed the address counters of
`buildSymbolTable` and `parseInstructions` agree after every prefix of the
line list (so the address associated with any line is identical in the two
passes), the `i`-th produced instruction receives address
`(INSTRUCTION_MEMORY_START + 4 * i) mod 2 ^ 32`, and as long as the 32-bit
counter cannot wrap, consecutive instruction addresses increase by exactly
4. -/
theorem c1_address_agreement (lines : List Str)
    (hg : ∀ l ∈ lines, GoodLine l)
    (stF : SymbolTable) (aS : Nat)
    (hs : buildSymGo [] INSTRUCTION_MEMORY_START lines = .ok (stF, aS))
    (insts : List ParsedInstruction) (aP : Nat)
    (hp : parseGo INSTRUCTION_MEMORY_START lines = .ok (insts, aP)) :
    aS = aP ∧
    (∀ k, ∃ stk ak instsk,
      buildSymGo [] INSTRUCTION_MEMORY_START (lines.take k) = .ok (stk, ak) ∧
      parseGo INSTRUCTION_MEMORY_START (lines.take k) = .ok (instsk, ak)) ∧
    (∀ i, (hi : i < insts.length) →
      insts[i].address = (INSTRUCTION_MEMORY_START + 4 * i) % U32) ∧
    (4 * insts.length ≤ U32 →
      ∀ i, (hi1 : i < insts.length) → (hi2 : i + 1 < insts.length) →
        insts[i + 1].address = insts[i].address + 4) := by
  have hlt : INSTRUCTION_MEMORY_START < U32 := by
    unfold INSTRUCTION_MEMORY_START U32
    omega
  obtain ⟨h1, h2, h3⟩ :=
    agree_go lines [] INSTRUCTION_MEMORY_START stF aS insts aP hlt hg hs hp
  refine ⟨h1, h2, h3, ?_⟩
  intro hb i hi1 hi2
  have e1 := h3 i hi1
  have e2 := h3 (i + 1) hi2
  rw [e1, e2]
  unfold INSTRUCTION_MEMORY_START U32 at *
  rw [Nat.zero_add, Nat.zero_add]
  rw [Nat.mod_eq_of_lt (by omega), Nat.mod_eq_of_lt (by omega)]
  ring

/-- Witness for C1 at a concrete two-line program: the hypotheses are
satisfiable and the prefix counters of the two passes agree. -/
theorem c1_address_agreement_witness :
    (∀ l ∈ [str "done:", str "add x1, x2, x3"], GoodLine l) ∧
    (∀ k, ∃ stk ak instsk,
      buildSymGo [] INSTRUCTION_MEMORY_START
          ([str "done:", str "add x1, x2, x3"].take k) = .ok (stk, ak) ∧
      parseGo INSTRUCTION_MEMORY_START
          ([str "done:", str "add x1, x2, x3"].take k) = .ok (instsk, ak)) :=
  ⟨by decide,
    (c1_address_agreement [str "done:", str "add x1, x2, x3"] (by decide)
      _ _ rfl _ _ rfl).2.1⟩

/-- Counterexample to C1 as stated: the two lines below are non-empty,
trimmed (with respect to the preprocessor's trim set `" \t\r\n"`) and do
not start with `'.'`, yet `buildSymbolTable` binds the label `b` to
address `INSTRUCTION_MEMORY_START + 4` while `parseInstructions` assigns
address `INSTRUCTION_MEMORY_START` to the instruction produced from that
same line: the first line ends in a vertical tab, which the symbol-table
pass counts as an instruction but the parser pass skips (its `stringstream`
extraction finds no mnemonic). -/
theorem c1_counterexample :
    (∀ l ∈ [str "a:\x0b", str "b: add x1, x2, x3"],
      l ≠ [] ∧ trim l = l ∧ l.head? ≠ some '.') ∧
    (∃ st, buildSymbolTable [str "a:\x0b", str "b: add x1, x2, x3"] = .ok st ∧
      lookupStr st (str "b") = some (INSTRUCTION_MEMORY_START + 4)) ∧
    (∃ inst, parseInstructions [str "a:\x0b", str "b: add x1, x2, x3"]
        = .ok [inst] ∧
      inst.originalLine = str "b: add x1, x2, x3" ∧
      inst.address = INSTRUCTION_MEMORY_START) := by
  refine ⟨by decide, ⟨[(str "a", 0), (str "b", 4)], by decide, by decide⟩,
    ⟨⟨str "add", [str "x1", str "x2", str "x3"], 0, str "b: add x1, x2, x3"⟩,
      by decide, by decide, by decide⟩⟩

/-! ## Claims C2, C9, C10 -/

/-- C2: on a non-directive line containing `':'` with a fresh label,
`buildSymbolTable` binds the label to the current address; when an
instruction follows the label on the same line the counter then advances by
4, and for a bare label the counter is left unchanged (so the label holds
the address the next instruction-bearing line will receive); any
instruction the parser produces from the same line carries that same
address. -/
theorem c2_label_binding (line : Str) (st : SymbolTable) (addr : Nat) (p : Nat)
    (hdot : line.head? ≠ some '.')
    (hcolon : firstIdx ':' line = some p)
    (hfresh : lookupStr st (stripWS (line.take p)) = none) :
    (trimLeft (line.drop (p + 1)) ≠ [] →
      symTableStep line st addr =
        .ok (st ++ [(stripWS (line.take p), addr)], adv addr)) ∧
    (trimLeft (line.drop (p + 1)) = [] →
      symTableStep line st addr =
        .ok (st ++ [(stripWS (line.take p), addr)], addr)) ∧
    lookupStr (st ++ [(stripWS (line.take p), addr)]) (stripWS (line.take p))
      = some addr ∧
    (∀ inst, parseStep line addr = .ok (some inst) → inst.address = addr) := by
  have hdup : (lookupStr st (stripWS (line.take p))).isSome = false := by
    rw [hfresh]
    rfl
  have hbind := symTableStep_bind line st addr p hdot hcolon hdup
  refine ⟨?_, ?_, lookupStr_append_of_none st _ addr hfresh, ?_⟩
  · intro hr
    rw [hbind, if_neg hr]
  · intro hr
    rw [hbind, if_pos hr]
  · intro inst h
    exact (parseStep_address line addr inst h).1

/-- Witness for C2: a labelled instruction line binds its label to the
current address and advances the counter by 4. -/
theorem c2_label_binding_witness :
    symTableStep (str "loop: addi x5, x5, -1") [] 0
      = .ok ([] ++ [(str "loop", 0)], adv 0) ∧
    lookupStr ([] ++ [(str "loop", 0)]) (str "loop") = some 0 :=
  ⟨(c2_label_binding (str "loop: addi x5, x5, -1") [] 0 4 (by decide) (by decide)
      (by decide)).1 (by decide),
   (c2_label_binding (str "loop: addi x5, x5, -1") [] 0 4 (by decide) (by decide)
      (by decide)).2.2.1⟩

/-- C9: on a non-directive line containing `':'`, the label is the text
before the first `':'` with every whitespace character removed; no label is
ever rejected as malformed — the only possible failure of the symbol-table
step is a duplicate of that very label, and a fresh label (including the
empty one) is always bound. -/
theorem c9_label_extraction (line : Str) (st : SymbolTable) (addr : Nat) (p : Nat)
    (hdot : line.head? ≠ some '.')
    (hcolon : firstIdx ':' line = some p) :
    (∀ e, symTableStep line st addr = .error e →
      e = .duplicateLabel (stripWS (line.take p))) ∧
    (lookupStr st (stripWS (line.take p)) = none →
      ∃ st2 a2, symTableStep line st addr = .ok (st2, a2) ∧
        lookupStr st2 (stripWS (line.take p)) = some addr) := by
  constructor
  · intro e he
    obtain ⟨q, hq, he2, _, _⟩ := symTableStep_error line st addr e he
    rw [hcolon] at hq
    injection hq with hq
    rw [he2, hq]
  · intro hfresh
    have hdup : (lookupStr st (stripWS (line.take p))).isSome = false := by
      rw [hfresh]
      rfl
    exact ⟨_, _, symTableStep_bind line st addr p hdot hcolon hdup,
      lookupStr_append_of_none st _ addr hfresh⟩

/-- Witness for C9: `"my label: addi x1, x0, 1"` binds the label
`"mylabel"` (inner whitespace removed), and a line beginning with `':'`
binds the empty-string label. -/
theorem c9_label_extraction_witness :
    (∃ st2 a2, symTableStep (str "my label: addi x1, x0, 1") [] 0
        = .ok (st2, a2) ∧ lookupStr st2 (str "mylabel") = some 0) ∧
    (∃ st2 a2, symTableStep (str ": j end") [] 0
        = .ok (st2, a2) ∧ lookupStr st2 (str "") = some 0) :=
  ⟨(c9_label_extraction (str "my label: addi x1, x0, 1") [] 0 8 (by decide)
      (by decide)).2 (by decide),
   (c9_label_extraction (str ": j end") [] 0 0 (by decide)
      (by decide)).2 (by decide)⟩

/-- C10: two consecutive bare-label lines followed by an instruction line
bind two distinct labels to the same address, so the label-to-address map
is not injective and label addresses are not strictly increasing. -/
theorem c10_bare_labels_share_address :
    ∃ st, buildSymbolTable [str "first:", str "second:", str "add x1, x2, x3"]
        = .ok st ∧
      lookupStr st (str "first") = some INSTRUCTION_MEMORY_START ∧
      lookupStr st (str "second") = some INSTRUCTION_MEMORY_START ∧
      str "first" ≠ str "second" := by
  exact ⟨[(str "first", 0), (str "second", 0)], by decide, by decide, by decide,
    by decide⟩

/-! ## Label bookkeeping for claim C3 -/

theorem lineLabel_dot (l : Str) (hdot : l.head? = some '.') :
    lineLabel l = none := by
  unfold lineLabel
  rw [if_pos hdot]

theorem lineLabel_nocolon (l : Str) (hdot : l.head? ≠ some '.')
    (hp : firstIdx ':' l = none) : lineLabel l = none := by
  unfold lineLabel
  rw [if_neg hdot, hp]
  rfl

theorem lineLabel_colon (l : Str) (p : Nat) (hdot : l.head? ≠ some '.')
    (hp : firstIdx ':' l = some p) :
    lineLabel l = some (stripWS (l.take p)) := by
  unfold lineLabel
  rw [if_neg hdot, hp]
  rfl

theorem labelsOf_cons_none (l : Str) (rest : List Str) (h : lineLabel l = none) :
    labelsOf (l :: rest) = labelsOf rest := by
  unfold labelsOf
  rw [List.filterMap_cons, h]

theorem labelsOf_cons_some (l : Str) (rest : List Str) (lab : Str)
    (h : lineLabel l = some lab) :
    labelsOf (l :: rest) = lab :: labelsOf rest := by
  unfold labelsOf
  rw [List.filterMap_cons, h]

theorem buildSymGo_keys (lines : List Str) :
    ∀ st addr stF aF, buildSymGo st addr lines = .ok (stF, aF) →
      stF.map (fun q => q.1) = st.map (fun q => q.1) ++ labelsOf lines := by
  induction lines with
  | nil =>
    intro st addr stF aF h
    rw [buildSymGo_nil] at h
    simp only [Except.ok.injEq, Prod.mk.injEq] at h
    obtain ⟨rfl, rfl⟩ := h
    simp [labelsOf]
  | cons line rest ih =>
    intro st addr stF aF h
    by_cases hdot : line.head? = some '.'
    · rw [buildSymGo_cons_ok line rest st st addr addr
        (symTableStep_dot line st addr hdot)] at h
      rw [ih st addr stF aF h, labelsOf_cons_none line rest (lineLabel_dot line hdot)]
    · cases hp : firstIdx ':' line with
      | none =>
        rw [buildSymGo_cons_ok line rest st st addr (adv addr)
          (symTableStep_nolabel line st addr hdot hp)] at h
        rw [ih st (adv addr) stF aF h,
          labelsOf_cons_none line rest (lineLabel_nocolon line hdot hp)]
      | some p =>
        cases hdup : (lookupStr st (stripWS (line.take p))).isSome with
        | true =>
          rw [buildSymGo_cons_err line rest st addr _
            (symTableStep_dup line st addr p hdot hp hdup)] at h
          exact Except.noConfusion h
        | false =>
          rw [buildSymGo_cons_ok line rest st _ addr _
            (symTableStep_bind line st addr p hdot hp hdup)] at h
          rw [ih _ _ stF aF h,
            labelsOf_cons_some line rest _ (lineLabel_colon line p hdot hp)]
          simp

theorem buildSymGo_error_kind (lines : List Str) :
    ∀ st addr e, buildSymGo st addr lines = .error e →
      ∃ lab, e = .duplicateLabel lab := by
  induction lines with
  | nil =>
    intro st addr e h
    rw [buildSymGo_nil] at h
    exact Except.noConfusion h
  | cons line rest ih =>
    intro st addr e h
    cases hstep : symTableStep line st addr with
    | error e2 =>
      rw [buildSymGo_cons_err line rest st addr e2 hstep] at h
      obtain ⟨p, _, he, _, _⟩ := symTableStep_error line st addr e2 hstep
      simp only [Except.error.injEq] at h
      exact ⟨stripWS (line.take p), by rw [← h, he]⟩
    | ok pair =>
      obtain ⟨st2, a2⟩ := pair
      rw [buildSymGo_cons_ok line rest st st2 addr a2 hstep] at h
      exact ih st2 a2 e h

theorem buildSymGo_ok_iff (lines : List Str) :
    ∀ st addr,
      (∃ r, buildSymGo st addr lines = .ok r) ↔
        ((labelsOf lines).Nodup ∧
          ∀ lab ∈ labelsOf lines, lab ∉ st.map (fun q => q.1)) := by
  induction lines with
  | nil =>
    intro st addr
    simp [buildSymGo_nil, labelsOf]
  | cons line rest ih =>
    intro st addr
    by_cases hdot : line.head? = some '.'
    · rw [labelsOf_cons_none line rest (lineLabel_dot line hdot)]
      constructor
      · rintro ⟨r, hr⟩
        rw [buildSymGo_cons_ok line rest st st addr addr
          (symTableStep_dot line st addr hdot)] at hr
        exact (ih st addr).mp ⟨r, hr⟩
      · intro hcond
        obtain ⟨r, hr⟩ := (ih st addr).mpr hcond
        refine ⟨r, ?_⟩
        rw [buildSymGo_cons_ok line rest st st addr addr
          (symTableStep_dot line st addr hdot)]
        exact hr
    · cases hp : firstIdx ':' line with
      | none =>
        rw [labelsOf_cons_none line rest (lineLabel_nocolon line hdot hp)]
        constructor
        · rintro ⟨r, hr⟩
          rw [buildSymGo_cons_ok line rest st st addr (adv addr)
            (symTableStep_nolabel line st addr hdot hp)] at hr
          exact (ih st (adv addr)).mp ⟨r, hr⟩
        · intro hcond
          obtain ⟨r, hr⟩ := (ih st (adv addr)).mpr hcond
          refine ⟨r, ?_⟩
          rw [buildSymGo_cons_ok line rest st st addr (adv addr)
            (symTableStep_nolabel line st addr hdot hp)]
          exact hr
      | some p =>
        rw [labelsOf_cons_some line rest _ (lineLabel_colon line p hdot hp)]
        cases hdup : (lookupStr st (stripWS (line.take p))).isSome with
        | true =>
          constructor
          · rintro ⟨r, hr⟩
            rw [buildSymGo_cons_err line rest st addr _
              (symTableStep_dup line st addr p hdot hp hdup)] at hr
            exact Except.noConfusion hr
          · rintro ⟨hnd, hdisj⟩
            exfalso
            exact hdisj _ (List.mem_cons_self _ _)
              ((lookupStr_isSome_iff st _).mp hdup)
        | false =>
          have hbind := symTableStep_bind line st addr p hdot hp hdup
          have hkeys : (st ++ [(stripWS (line.take p), addr)]).map (fun q => q.1)
              = st.map (fun q => q.1) ++ [stripWS (line.take p)] := by
            simp
          constructor
          · rintro ⟨r, hr⟩
            rw [buildSymGo_cons_ok line rest st _ addr _ hbind] at hr
            obtain ⟨hnd, hdisj⟩ := (ih _ _).mp ⟨r, hr⟩
            rw [hkeys] at hdisj
            constructor
            · rw [List.nodup_cons]
              refine ⟨?_, hnd⟩
              intro hmem
              exact hdisj _ hmem (List.mem_append.mpr (Or.inr (by simp)))
            · intro lab2 hmem
              rcases List.mem_cons.mp hmem with heq | hmem2
              · intro hk
                have hsome := (lookupStr_isSome_iff st lab2).mpr hk
                rw [heq] at hsome
                rw [hdup] at hsome
                exact Bool.noConfusion hsome
              · intro hk
                exact hdisj lab2 hmem2 (List.mem_append.mpr (Or.inl hk))
          · rintro ⟨hnd, hdisj⟩
            rw [List.nodup_cons] at hnd
            have hcond : ∀ lab ∈ labelsOf rest,
                lab ∉ (st ++ [(stripWS (line.take p), addr)]).map (fun q => q.1) := by
              intro lab2 hmem
              rw [hkeys]
              intro hk
              rcases List.mem_append.mp hk with hk | hk
              · exact hdisj lab2 (List.mem_cons_of_mem _ hmem) hk
              · simp only [List.mem_singleton] at hk
                rw [hk] at hmem
                exact hnd.1 hmem
            obtain ⟨r, hr⟩ := (ih _ _).mpr ⟨hnd.2, hcond⟩
            refine ⟨r, ?_⟩
            rw [buildSymGo_cons_ok line rest st _ addr _ hbind]
            exact hr

theorem buildSymbolTable_ok_iff (lines : List Str) (st : SymbolTable) :
    buildSymbolTable lines = .ok st ↔
      ∃ aF, buildSymGo [] INSTRUCTION_MEMORY_START lines = .ok (st, aF) := by
  unfold buildSymbolTable
  cases h : buildSymGo [] INSTRUCTION_MEMORY_START lines with
  | error e => simp [Except.map]
  | ok r =>
    obtain ⟨st2, aF⟩ := r
    simp only [Except.map, Except.ok.injEq, Prod.mk.injEq]
    constructor
    · intro h2
      exact ⟨aF, h2, rfl⟩
    · rintro ⟨aF2, h2, _⟩
      exact h2

theorem buildSymbolTable_error_iff (lines : List Str) (e : AsmError) :
    buildSymbolTable lines = .error e ↔
      buildSymGo [] INSTRUCTION_MEMORY_START lines = .error e := by
  unfold buildSymbolTable
  cases h : buildSymGo [] INSTRUCTION_MEMORY_START lines with
  | error e2 => simp [Except.map]
  | ok r =>
    obtain ⟨st2, aF⟩ := r
    simp [Except.map]

theorem assemble_error_of_sym (lines : List Str) (e : AsmError)
    (h : buildSymbolTable lines = .error e) : assemble lines = .error e := by
  unfold assemble
  rw [h]

/-! ## Claim C3 -/

/-- C3: `buildSymbolTable` succeeds exactly when no label (after whitespace
stripping) occurs on two lines; on a duplicate it aborts with a
duplicate-label error, and the whole assembly pipeline then stops before
any instruction is parsed; on success every label of the input is bound
exactly once. -/
theorem c3_duplicate_label (lines : List Str) :
    ((labelsOf lines).Nodup ↔ ∃ st, buildSymbolTable lines = .ok st) ∧
    (∀ e, buildSymbolTable lines = .error e →
      (∃ lab, e = .duplicateLabel lab) ∧ assemble lines = .error e) ∧
    (∀ st, buildSymbolTable lines = .ok st →
      (st.map (fun q => q.1)).Nodup ∧
      (∀ lab, (lookupStr st lab).isSome = true ↔ lab ∈ labelsOf lines)) := by
  refine ⟨⟨?_, ?_⟩, ?_, ?_⟩
  · intro hnd
    obtain ⟨⟨st, aF⟩, hr⟩ :=
      (buildSymGo_ok_iff lines [] INSTRUCTION_MEMORY_START).mpr ⟨hnd, by simp⟩
    exact ⟨st, (buildSymbolTable_ok_iff lines st).mpr ⟨aF, hr⟩⟩
  · rintro ⟨st, hok⟩
    obtain ⟨aF, hr⟩ := (buildSymbolTable_ok_iff lines st).mp hok
    exact ((buildSymGo_ok_iff lines [] INSTRUCTION_MEMORY_START).mp
      ⟨(st, aF), hr⟩).1
  · intro e he
    exact ⟨buildSymGo_error_kind lines [] INSTRUCTION_MEMORY_START e
        ((buildSymbolTable_error_iff lines e).mp he),
      assemble_error_of_sym lines e he⟩
  · intro st hok
    obtain ⟨aF, hr⟩ := (buildSymbolTable_ok_iff lines st).mp hok
    have hkeys := buildSymGo_keys lines [] INSTRUCTION_MEMORY_START st aF hr
    simp only [List.map_nil, List.nil_append] at hkeys
    constructor
    · rw [hkeys]
      exact ((buildSymGo_ok_iff lines [] INSTRUCTION_MEMORY_START).mp
        ⟨(st, aF), hr⟩).1
    · intro lab
      rw [lookupStr_isSome_iff, hkeys]

/-- Witness for C3: a program that defines `loop:` twice aborts with the
duplicate-label error before parsing, and a program with distinct labels
builds its table. -/
theorem c3_duplicate_label_witness :
    (∃ lab, (AsmError.duplicateLabel (str "loop")) = .duplicateLabel lab) ∧
    assemble [str "loop: addi x5, x5, -1", str "loop: add x1, x2, x3"]
      = .error (.duplicateLabel (str "loop")) ∧
    (∃ st, buildSymbolTable [str "one: add x1, x2, x3", str "two: sub x1, x2, x3"]
      = .ok st) :=
  ⟨((c3_duplicate_label [str "loop: addi x5, x5, -1", str "loop: add x1, x2, x3"]).2.1
      (.duplicateLabel (str "loop")) (by decide)).1,
   ((c3_duplicate_label [str "loop: addi x5, x5, -1", str "loop: add x1, x2, x3"]).2.1
      (.duplicateLabel (str "loop")) (by decide)).2,
   (c3_duplicate_label [str "one: add x1, x2, x3", str "two: sub x1, x2, x3"]).1.mp
     (by decide)⟩

/-! ## Load/store operand analysis for claims C4 and C5 -/

theorem parseLS_count (line mn rest : Str)
    (hsp : (split rest ',').length ≠ 2) :
    parseLS line mn rest = .error (.operandCount line mn) := by
  unfold parseLS
  cases hs : split rest ',' with
  | nil => exact rfl
  | cons p0 tail =>
    cases tail with
    | nil => exact rfl
    | cons p1 tail2 =>
      cases tail2 with
      | nil =>
        exfalso
        rw [hs] at hsp
        simp at hsp
      | cons p2 tail3 => exact rfl

theorem parseLS_ok_eq (line mn rest p0 p1 : Str) (o c : Nat)
    (hsp : split rest ',' = [p0, p1])
    (ho : firstIdx '(' p1 = some o) (hc : firstIdx ')' p1 = some c)
    (hoc : ¬c < o) :
    parseLS line mn rest =
      .ok [p0, stripWS ((p1.drop (o + 1)).take (c - (o + 1))), p1.take o] := by
  simp [parseLS, hsp, ho, hc, hoc]

theorem parseLS_inv_eq (line mn rest p0 p1 : Str) (o c : Nat)
    (hsp : split rest ',' = [p0, p1])
    (ho : firstIdx '(' p1 = some o) (hc : firstIdx ')' p1 = some c)
    (hoc : c < o) :
    parseLS line mn rest = .error (.addrFormat line mn) := by
  simp [parseLS, hsp, ho, hc, hoc]

theorem parseLS_noopen (line mn rest p0 p1 : Str)
    (hsp : split rest ',' = [p0, p1]) (ho : firstIdx '(' p1 = none) :
    parseLS line mn rest = .error (.addrFormat line mn) := by
  simp [parseLS, hsp, ho]

theorem parseLS_noclose (line mn rest p0 p1 : Str) (o : Nat)
    (hsp : split rest ',' = [p0, p1])
    (ho : firstIdx '(' p1 = some o) (hc : firstIdx ')' p1 = none) :
    parseLS line mn rest = .error (.addrFormat line mn) := by
  simp [parseLS, hsp, ho, hc]

theorem parseStep_ls_err (l : Str) (addr : Nat) (cl : Str) (e : AsmError)
    (hsl : stripLabel l = some cl) (hm : word1 cl ≠ [])
    (hls : word1 cl = str "lw" ∨ word1 cl = str "sw")
    (hpl : parseLS l (word1 cl) (afterWord1 cl) = .error e) :
    parseStep l addr = .error e := by
  rw [parseStep_ls l addr cl hsl hm hls, hpl]

theorem parseStep_ls_ok (l : Str) (addr : Nat) (cl : Str) (ops : List Str)
    (hsl : stripLabel l = some cl) (hm : word1 cl ≠ [])
    (hls : word1 cl = str "lw" ∨ word1 cl = str "sw")
    (hpl : parseLS l (word1 cl) (afterWord1 cl) = .ok ops) :
    parseStep l addr = .ok (some ⟨word1 cl, ops, addr, l⟩) := by
  rw [parseStep_ls l addr cl hsl hm hls, hpl]

theorem firstIdx_paren_ne (p1 : Str) (o c : Nat) (ho : firstIdx '(' p1 = some o)
    (hc : firstIdx ')' p1 = some c) : o ≠ c := by
  intro h
  subst h
  obtain ⟨ho2, hgo⟩ := firstIdx_get '(' p1 o ho
  obtain ⟨hc2, hgc⟩ := firstIdx_get ')' p1 o hc
  have hee : p1.get ⟨o, ho2⟩ = p1.get ⟨o, hc2⟩ := rfl
  have hbad : '(' = ')' := hgo.symm.trans (hee.trans hgc)
  exact absurd hbad (by decide)

/-! ## Claim C4 -/

/-- C4: for a line whose extracted mnemonic is `lw` or `sw`, the parse step
succeeds iff the operand text splits on commas into exactly two parts and
the second part contains a `'('` occurring before a `')'` (first
occurrences); on success the instruction carries exactly three operands
`[register, base register, immediate]` in that fixed order, and otherwise
the step aborts with a hard error. -/
theorem c4_load_store (line : Str) (addr : Nat) (cl : Str)
    (hsl : stripLabel line = some cl)
    (hls : word1 cl = str "lw" ∨ word1 cl = str "sw") :
    ((∃ inst, parseStep line addr = .ok (some inst)) ↔
      ((split (afterWord1 cl) ',').length = 2 ∧
        ∃ p1 o c, (split (afterWord1 cl) ',')[1]? = some p1 ∧
          firstIdx '(' p1 = some o ∧ firstIdx ')' p1 = some c ∧ o < c)) ∧
    (∀ inst, parseStep line addr = .ok (some inst) →
      inst.mnemonic = word1 cl ∧ inst.address = addr ∧
      ∃ p0 p1 o c, split (afterWord1 cl) ',' = [p0, p1] ∧
        firstIdx '(' p1 = some o ∧ firstIdx ')' p1 = some c ∧ o < c ∧
        inst.operands =
          [p0, stripWS ((p1.drop (o + 1)).take (c - (o + 1))), p1.take o] ∧
        inst.operands.length = 3) ∧
    (¬((split (afterWord1 cl) ',').length = 2 ∧
        ∃ p1 o c, (split (afterWord1 cl) ',')[1]? = some p1 ∧
          firstIdx '(' p1 = some o ∧ firstIdx ')' p1 = some c ∧ o < c) →
      ∃ e, parseStep line addr = .error e) := by
  have hm : word1 cl ≠ [] := by
    rcases hls with h | h <;> rw [h] <;> decide
  have hbad : ∀ e, parseStep line addr = .error e →
      (∀ inst, parseStep line addr = .ok (some inst) → False) := by
    intro e he inst hinst
    rw [he] at hinst
    exact Except.noConfusion hinst
  cases hsplit : split (afterWord1 cl) ',' with
  | nil =>
    have herr := parseStep_ls_err line addr cl _ hsl hm hls
      (parseLS_count line _ _ (by rw [hsplit]; simp))
    refine ⟨⟨?_, ?_⟩, ?_, ?_⟩
    · rintro ⟨inst, hinst⟩
      exact absurd hinst (fun h => hbad _ herr inst h)
    · rintro ⟨hlen, _⟩
      simp at hlen
    · intro inst hinst
      exact absurd hinst (fun h => hbad _ herr inst h)
    · intro _
      exact ⟨_, herr⟩
  | cons p0 tail =>
    cases tail with
    | nil =>
      have herr := parseStep_ls_err line addr cl _ hsl hm hls
        (parseLS_count line _ _ (by rw [hsplit]; simp))
      refine ⟨⟨?_, ?_⟩, ?_, ?_⟩
      · rintro ⟨inst, hinst⟩
        exact absurd hinst (fun h => hbad _ herr inst h)
      · rintro ⟨hlen, _⟩
        simp at hlen
      · intro inst hinst
        exact absurd hinst (fun h => hbad _ herr inst h)
      · intro _
        exact ⟨_, herr⟩
    | cons p1 tail2 =>
      cases tail2 with
      | cons p2 tail3 =>
        have herr := parseStep_ls_err line addr cl _ hsl hm hls
          (parseLS_count line _ _ (by rw [hsplit]; simp))
        refine ⟨⟨?_, ?_⟩, ?_, ?_⟩
        · rintro ⟨inst, hinst⟩
          exact absurd hinst (fun h => hbad _ herr inst h)
        · rintro ⟨hlen, _⟩
          simp at hlen
        · intro inst hinst
          exact absurd hinst (fun h => hbad _ herr inst h)
        · intro _
          exact ⟨_, herr⟩
      | nil =>
        cases ho : firstIdx '(' p1 with
        | none =>
          have herr := parseStep_ls_err line addr cl _ hsl hm hls
            (parseLS_noopen line _ _ p0 p1 hsplit ho)
          refine ⟨⟨?_, ?_⟩, ?_, ?_⟩
          · rintro ⟨inst, hinst⟩
            exact absurd hinst (fun h => hbad _ herr inst h)
          · rintro ⟨hlen, p1', o, c, hg, ho2, _, _⟩
            simp only [List.getElem?_cons_succ, List.getElem?_cons_zero,
              Option.some.injEq] at hg
            rw [← hg] at ho2
            rw [ho] at ho2
            exact Option.noConfusion ho2
          · intro inst hinst
            exact absurd hinst (fun h => hbad _ herr inst h)
          · intro _
            exact ⟨_, herr⟩
        | some o =>
          cases hc : firstIdx ')' p1 with
          | none =>
            have herr := parseStep_ls_err line addr cl _ hsl hm hls
              (parseLS_noclose line _ _ p0 p1 o hsplit ho hc)
            refine ⟨⟨?_, ?_⟩, ?_, ?_⟩
            · rintro ⟨inst, hinst⟩
              exact absurd hinst (fun h => hbad _ herr inst h)
            · rintro ⟨hlen, p1', o', c, hg, ho2, hc2, _⟩
              simp only [List.getElem?_cons_succ, List.getElem?_cons_zero,
                Option.some.injEq] at hg
              rw [← hg] at hc2
              rw [hc] at hc2
              exact Option.noConfusion hc2
            · intro inst hinst
              exact absurd hinst (fun h => hbad _ herr inst h)
            · intro _
              exact ⟨_, herr⟩
          | some c =>
            by_cases hoc : c < o
            · have herr := parseStep_ls_err line addr cl _ hsl hm hls
                (parseLS_inv_eq line _ _ p0 p1 o c hsplit ho hc hoc)
              refine ⟨⟨?_, ?_⟩, ?_, ?_⟩
              · rintro ⟨inst, hinst⟩
                exact absurd hinst (fun h => hbad _ herr inst h)
              · rintro ⟨hlen, p1', o', c', hg, ho2, hc2, hlt⟩
                simp only [List.getElem?_cons_succ, List.getElem?_cons_zero,
                  Option.some.injEq] at hg
                rw [← hg] at ho2 hc2
                rw [ho] at ho2
                rw [hc] at hc2
                injection ho2 with ho2
                injection hc2 with hc2
                omega
              · intro inst hinst
                exact absurd hinst (fun h => hbad _ herr inst h)
              · intro _
                exact ⟨_, herr⟩
            · have hne := firstIdx_paren_ne p1 o c ho hc
              have holt : o < c := by omega
              have hok := parseStep_ls_ok line addr cl _ hsl hm hls
                (parseLS_ok_eq line _ _ p0 p1 o c hsplit ho hc hoc)
              have hcond : ([p0, p1] : List Str).length = 2 ∧
                  ∃ p1' o' c', ([p0, p1] : List Str)[1]? = some p1' ∧
                    firstIdx '(' p1' = some o' ∧ firstIdx ')' p1' = some c' ∧
                    o' < c' :=
                ⟨rfl, p1, o, c, rfl, ho, hc, holt⟩
              refine ⟨⟨?_, ?_⟩, ?_, ?_⟩
              · intro _
                exact hcond
              · intro _
                exact ⟨_, hok⟩
              · intro inst hinst
                rw [hok] at hinst
                simp only [Except.ok.injEq, Option.some.injEq] at hinst
                rw [← hinst]
                exact ⟨rfl, rfl, p0, p1, o, c, rfl, ho, hc, holt, rfl, rfl⟩
              · intro hncond
                exact absurd hcond hncond

/-- Witness for C4: `"lw x1, 4(x2)"` satisfies the success condition and
parses. -/
theorem c4_load_store_witness :
    ∃ inst, parseStep (str "lw x1, 4(x2)") 0 = .ok (some inst) :=
  (c4_load_store (str "lw x1, 4(x2)") 0 (str "lw x1, 4(x2)") (by decide)
      (Or.inl (by decide))).1.mpr
    ⟨by decide, str "4(x2)", 1, 4, by decide, by decide, by decide, by decide⟩

/-! ## Claim C5 -/

/-- C5, amended: parse-time operand validation applies only to the
load/store mnemonics `lw` and `sw`; for every other mnemonic the parse
step succeeds unconditionally, storing whatever comma-split operand list
the line provides, with no arity check (any such check is left to the
encoder). -/
theorem c5_general_no_arity_check (line : Str) (addr : Nat) (cl : Str)
    (hsl : stripLabel line = some cl)
    (hm : word1 cl ≠ [])
    (hlw : word1 cl ≠ str "lw") (hsw : word1 cl ≠ str "sw") :
    parseStep line addr =
      .ok (some ⟨word1 cl, split (afterWord1 cl) ',', addr, line⟩) :=
  parseStep_general line addr cl hsl hm (fun h => h.elim hlw hsw)

/-- Witness for C5 (amended): the malformed line `"add x1"` — one operand
where `add` needs three — parses successfully. -/
theorem c5_general_no_arity_check_witness :
    parseStep (str "add x1") 0 =
      .ok (some ⟨str "add", [str "x1"], 0, str "add x1"⟩) :=
  c5_general_no_arity_check (str "add x1") 0 (str "add x1") (by decide)
    (by decide) (by decide) (by decide)

/-- Counterexample to C5 as stated: the instruction line `"add x1"` has the
wrong operand count for its mnemonic (`add` is a three-operand
register-register instruction), yet `parseInstructions` does not abort — it
returns the instruction with a single operand, deferring any check to the
encoder. -/
theorem c5_counterexample :
    parseInstructions [str "add x1"] =
      .ok [⟨str "add", [str "x1"], INSTRUCTION_MEMORY_START, str "add x1"⟩] := by
  decide

/-! ## Claim C6 -/

theorem hash_not_mem_stripComment (l : Str) : '#' ∉ stripComment l := by
  unfold stripComment
  cases h : firstIdx '#' l with
  | some p => exact firstIdx_take '#' l p h
  | none => exact (firstIdx_eq_none '#' l).mp h

theorem isWhitespace_eq_isTrimWS (c : Char) : c.isWhitespace = isTrimWS c := rfl

/-- C6: every line returned by the preprocessor is non-empty, starts and
ends with a non-whitespace character, does not start with `'.'`, contains
no `'#'` (everything from the first `'#'` on was removed), and is the
cleaned form of some input line; the preprocessor maps concatenation to
concatenation, so the file's line order is preserved. -/
theorem c6_preprocess (lines : List Str) :
    (∀ l ∈ readAndPreprocess lines,
      l ≠ [] ∧
      (∀ c, l.head? = some c → c.isWhitespace = false ∧ c ≠ '.') ∧
      (∀ c, l.getLast? = some c → c.isWhitespace = false) ∧
      '#' ∉ l ∧
      ∃ src ∈ lines, l = cleanLine src) ∧
    (∀ xs ys, readAndPreprocess (xs ++ ys)
      = readAndPreprocess xs ++ readAndPreprocess ys) := by
  constructor
  · intro l hl
    unfold readAndPreprocess at hl
    rw [List.mem_filter] at hl
    obtain ⟨hmap, hkeep⟩ := hl
    rw [List.mem_map] at hmap
    obtain ⟨src, hsrc, hclean⟩ := hmap
    subst hclean
    have hne : cleanLine src ≠ [] := by
      intro hnil
      rw [hnil] at hkeep
      exact Bool.noConfusion hkeep
    refine ⟨hne, ?_, ?_, ?_, src, hsrc, rfl⟩
    · intro c hc
      constructor
      · rw [isWhitespace_eq_isTrimWS]
        unfold cleanLine trim at hc
        rcases trimRight_head? (trimLeft (stripComment src)) with hnil | hhd
        · exfalso
          apply hne
          unfold cleanLine trim
          exact hnil
        · rw [hhd] at hc
          exact head?_dropWhile_not isTrimWS (stripComment src) c hc
      · intro hdot
        cases hx : cleanLine src with
        | nil => exact hne hx
        | cons a t =>
          rw [hx] at hc
          injection hc with hc
          rw [hx] at hkeep
          unfold keepLine at hkeep
          simp only [decide_eq_true_eq] at hkeep
          rw [← hc] at hdot
          exact hkeep hdot
    · intro c hc
      rw [isWhitespace_eq_isTrimWS]
      unfold cleanLine trim at hc
      exact getLast?_trimRight _ c hc
    · intro hmem
      unfold cleanLine trim at hmem
      have h1 := mem_of_mem_trimRight _ _ hmem
      have h2 := mem_of_mem_dropWhile isTrimWS _ _ h1
      exact hash_not_mem_stripComment src h2
  · intro xs ys
    unfold readAndPreprocess
    rw [List.map_append, List.filter_append]

/-- Witness for C6: the comment-bearing, indented first line survives as
`"add x1"`; the blank line and the directive line are dropped. -/
theorem c6_preprocess_witness :
    str "add x1" ≠ [] ∧
    (∀ c, (str "add x1").head? = some c → c.isWhitespace = false ∧ c ≠ '.') ∧
    (∀ c, (str "add x1").getLast? = some c → c.isWhitespace = false) ∧
    '#' ∉ str "add x1" ∧
    ∃ src ∈ [str "  add x1 # comment", str "", str ".word 5"],
      str "add x1" = cleanLine src :=
  (c6_preprocess [str "  add x1 # comment", str "", str ".word 5"]).1
    (str "add x1") (by decide)

/-! ## Claim C7 -/

theorem set_memory_same (m : Nat → Nat) (a v : Nat) :
    set_memory m a v a = v % 256 := by
  unfold set_memory
  rw [if_pos rfl]

theorem set_memory_other (m : Nat → Nat) (a v x : Nat) (h : x ≠ a) :
    set_memory m a v x = m x := by
  unfold set_memory
  rw [if_neg h]

/-- C7: processing one data-segment entry stores the four little-endian
bytes of the 32-bit value at `addr .. addr + 3` — `val mod 256` at `addr`,
then the successively higher bytes — and touches no other address;
`loadDataSegment` processes the entries by iterating exactly this step. -/
theorem c7_little_endian (mem : Nat → Nat) (addr val : Nat) :
    loadDataEntry mem addr val addr = val % 256 ∧
    loadDataEntry mem addr val (addr + 1) = val / 256 % 256 ∧
    loadDataEntry mem addr val (addr + 2) = val / 65536 % 256 ∧
    loadDataEntry mem addr val (addr + 3) = val / 16777216 % 256 ∧
    (∀ a, a ≠ addr → a ≠ addr + 1 → a ≠ addr + 2 → a ≠ addr + 3 →
      loadDataEntry mem addr val a = mem a) ∧
    (∀ rest, loadDataSegment ((addr, val) :: rest) mem
      = loadDataSegment rest (loadDataEntry mem addr val)) := by
  have hmask : ∀ x : Nat, x &&& 255 = x % 256 := by
    intro x
    have h := Nat.and_pow_two_sub_one_eq_mod x 8
    norm_num at h
    exact h
  have hsh : ∀ x k : Nat, x >>> k = x / 2 ^ k := fun x k =>
    Nat.shiftRight_eq_div_pow x k
  unfold loadDataEntry
  refine ⟨?_, ?_, ?_, ?_, ?_, ?_⟩
  · rw [set_memory_other _ _ _ _ (by omega), set_memory_other _ _ _ _ (by omega),
      set_memory_other _ _ _ _ (by omega), set_memory_same, hmask]
    omega
  · rw [set_memory_other _ _ _ _ (by omega), set_memory_other _ _ _ _ (by omega),
      set_memory_same, hmask, hsh]
    norm_num
  · rw [set_memory_other _ _ _ _ (by omega), set_memory_same, hmask, hsh]
    norm_num
  · rw [set_memory_same, hmask, hsh]
    norm_num
  · intro a h0 h1 h2 h3
    rw [set_memory_other _ _ _ _ h3, set_memory_other _ _ _ _ h2,
      set_memory_other _ _ _ _ h1, set_memory_other _ _ _ _ h0]
  · intro rest
    rfl

/-- Witness for C7 at a concrete memory and entry: loading `0x12345678` at
address 8 stores its low byte at 8, the next byte at 9, and leaves byte 12
unchanged. -/
theorem c7_little_endian_witness :
    loadDataEntry (fun _ => 0) 8 305419896 8 = 305419896 % 256 ∧
    loadDataEntry (fun _ => 0) 8 305419896 (8 + 1) = 305419896 / 256 % 256 ∧
    loadDataEntry (fun _ => 0) 8 305419896 12 = 0 :=
  ⟨(c7_little_endian (fun _ => 0) 8 305419896).1,
   (c7_little_endian (fun _ => 0) 8 305419896).2.1,
   (c7_little_endian (fun _ => 0) 8 305419896).2.2.2.2.1 12
     (by omega) (by omega) (by omega) (by omega)⟩

/-! ## Claim C8 -/

/-- C8: over every interleaving of `set_reg` calls (including index 0) and
write-back stages of executed instructions (including those whose
destination register is 0), register x0 stays 0: both operations discard
writes to index 0. -/
theorem c8_x0_invariant (ops : List SimOp) (s : SimRegs)
    (h : get_reg s 0 = 0) : get_reg (runSim s ops) 0 = 0 := by
  induction ops generalizing s with
  | nil => exact h
  | cons op rest ih =>
    apply ih
    cases op with
    | setRegOp i v =>
      simp only [applySimOp]
      unfold set_reg
      by_cases hi : i = 0
      · rw [if_pos hi]
        exact h
      · rw [if_neg hi]
        unfold get_reg at h ⊢
        show (if (0 : Nat) = i then v else s.regs 0) = 0
        rw [if_neg (fun hc => hi (by omega))]
        exact h
    | writeBack w rd v =>
      simp only [applySimOp]
      unfold wbWrite
      by_cases hw : w = true ∧ rd ≠ 0
      · rw [if_pos hw]
        unfold get_reg at h ⊢
        show (if (0 : Nat) = rd then v else s.regs 0) = 0
        rw [if_neg (fun hc => hw.2 (by omega))]
        exact h
      · rw [if_neg hw]
        exact h

/-- Witness for C8: from the all-zero register file, a sequence containing
`set_reg 0 5`, a write-back targeting x0, and ordinary writes to other
registers leaves x0 at 0. -/
theorem c8_x0_invariant_witness :
    get_reg (runSim ⟨fun _ => 0⟩
      [SimOp.setRegOp 0 5, SimOp.writeBack true 0 7,
       SimOp.setRegOp 2 9, SimOp.writeBack true 3 1]) 0 = 0 :=
  c8_x0_invariant
    [SimOp.setRegOp 0 5, SimOp.writeBack true 0 7,
     SimOp.setRegOp 2 9, SimOp.writeBack true 3 1]
    ⟨fun _ => 0⟩ rfl
